import Mathlib

/-!
Verification of the fuzzy-match name-clustering engine of
`Duplicate_name_detection.ipynb`.

Strings are modelled as `List Char` (Python `str`, ASCII fragment: the
notebook's `str.lower`/`str.strip` are modelled on the ASCII letters and
ASCII whitespace; all data handled by the claims is ASCII).  Real-valued
scores (Python floats) are modelled as exact rationals `ℚ`.  Code that can
raise a Python exception (the `ZeroDivisionError` in `get_similarity_score`)
is modelled with `Option`: `none` is a raised exception.

The external string-similarity primitives (`soundex`, `metaphone`,
`levenshtein_distance`, `jaro_winkler_similarity` from the `jellyfish`
library) are out-of-scope external collaborators (spec section 6): the
engine is parameterised over a `Provider` bundling the four pure functions,
and concrete runs use an explicit interface-conforming provider.
-/

/-- A Python string, as a list of characters. -/
abbrev Name := List Char

/-- A Python `dict[str, list[str]]` in insertion order, as an association
list whose keys are listed in first-insertion order. -/
abbrev MMap := List (Name × List Name)

/-- ASCII lowercasing of one character: model of what Python `str.lower`
does to each character of the names handled here (`Char.toLower` is exactly
the ASCII case map). -/
def lowerChar (c : Char) : Char := c.toLower

/-- ASCII whitespace (the characters Python `str.strip` removes, restricted
to ASCII: space, tab, newline, carriage return, vertical tab, form feed). -/
def isSpaceC (c : Char) : Bool :=
  c.toNat = 32 || c.toNat = 9 || c.toNat = 10 || c.toNat = 13 ||
  c.toNat = 11 || c.toNat = 12

/-- Python `str.strip`: drop leading and trailing whitespace. -/
def strip (l : List Char) : List Char :=
  (((l.dropWhile isSpaceC).reverse.dropWhile isSpaceC)).reverse

/-- `preprocess_name`: `name.strip().lower()` for a string input (the
notebook returns `''` for non-string inputs, which is covered by the empty
list). -/
def preprocess_name (name : Name) : Name :=
  (strip name).map lowerChar

/-- Lowercase image of a whole string (Python `str.lower`). -/
def lowerList (l : Name) : Name := l.map lowerChar

/-- Strict lexicographic comparison of strings by code point: Python `<`
on `str`. -/
def ltStr : Name → Name → Bool
  | [], [] => false
  | [], _ :: _ => true
  | _ :: _, [] => false
  | a :: as, b :: bs => if a < b then true else if b < a then false else ltStr as bs

/-- Non-strict comparison used by the (total) sorts: `a ≤ b ↔ ¬ b < a`. -/
def leStr (a b : Name) : Bool := !(ltStr b a)

/-- `name.split(' (')[0]`: the part of the string before the first
occurrence of the two-character separator `" ("`. -/
def baseOf : Name → Name
  | [] => []
  | ' ' :: '(' :: _ => []
  | c :: rest => c :: baseOf rest

/-- Python's `f"{score:.2f}"` on the exact rational modelling the float
score: fixed-point with exactly two digits after the point.  (Ties are
rounded half-up here; the notebook's floats round the nearest double, a
distinction none of the claims exercises.) -/
def fmtScore (s : ℚ) : List Char :=
  let n := (round (s * 100)).natAbs
  (if s < 0 then ['-'] else []) ++
    Nat.toDigits 10 (n / 100) ++
    '.' :: (if n % 100 < 10 then '0' :: Nat.toDigits 10 (n % 100) else Nat.toDigits 10 (n % 100))

/-- A formatted Match Record string `f"{other} ({score:.2f})"`. -/
def fmtEntry (other : Name) (s : ℚ) : Name :=
  other ++ ' ' :: '(' :: (fmtScore s ++ [')'])

/-- Insert into a sorted list, keeping insertion-order of `le`-ties
(auxiliary for the stable sort). -/
def insertSorted {α : Type} (le : α → α → Bool) (x : α) : List α → List α
  | [] => [x]
  | y :: ys => if le x y then x :: y :: ys else y :: insertSorted le x ys

/-- Stable ascending sort: model of Python `sorted` / `list.sort` (any
stable comparison sort computes the same list). -/
def insSort {α : Type} (le : α → α → Bool) : List α → List α
  | [] => []
  | x :: xs => insertSorted le x (insSort le xs)

/-- First-occurrence deduplication: model of Python's `set(cluster)`
(whose iteration order is unspecified; the sort applied right after makes
the choice immaterial for distinct sort keys). -/
def dedupFirst : List Name → List Name
  | [] => []
  | x :: xs => x :: (dedupFirst xs).filter (fun y => y != x)

/-- `m[k]` for a dict modelled as an association list (first matching key),
with the `defaultdict(list)` default `[]` for absent keys. -/
def lookupD (m : MMap) (k : Name) : List Name :=
  match m with
  | [] => []
  | (k', v) :: rest => if k' = k then v else lookupD rest k

/-- `m[k].extend(vs)` on a `defaultdict(list)`: extend the list at the
first occurrence of `k`, or append a fresh key (at the end, preserving
dict insertion order) if `k` is absent. -/
def extendAt (m : MMap) (k : Name) (vs : List Name) : MMap :=
  match m with
  | [] => [(k, vs)]
  | (k', v) :: rest => if k' = k then (k', v ++ vs) :: rest else (k', v) :: extendAt rest k vs

/-- `m[k].append(v)` on a `defaultdict(list)`. -/
def addOne (m : MMap) (k : Name) (v : Name) : MMap := extendAt m k [v]

/-- The keys of a dict, in insertion order. -/
def keysOf (m : MMap) : List Name := m.map Prod.fst

/-- `for key, value in src.items(): dst[key].extend(value)` — the merge
step used by both fan-in stages of the orchestrator. -/
def mergeMaps (dst src : MMap) : MMap :=
  src.foldl (fun d kv => extendAt d kv.1 kv.2) dst

/-- The four external string-similarity primitives (spec section 6):
`soundex`, `metaphone`, `levenshtein_distance`, `jaro_winkler_similarity`
of the `jellyfish` library, behind their stable interface. -/
structure Provider where
  soundex : Name → Name
  metaphone : Name → Name
  lev : Name → Name → ℕ
  jw : Name → Name → ℚ

/-- `get_similarity_score`: preprocess both names, combine the phonetic
agreements and string-similarity measures with fixed weights.  When both
normalized names are empty, `max(len(name1), len(name2)) = 0` and the
notebook's `levenshtein_score / max(...)` raises `ZeroDivisionError`,
modelled as `none`. -/
def get_similarity_score (p : Provider) (n1 n2 : Name) : Option ℚ :=
  let name1 := preprocess_name n1
  let name2 := preprocess_name n2
  if max name1.length name2.length = 0 then none
  else
    some ((if p.soundex name1 = p.soundex name2 then (1 : ℚ) else 0) * 0.2 +
          (if p.metaphone name1 = p.metaphone name2 then (1 : ℚ) else 0) * 0.2 +
          (1 - (p.lev name1 name2 : ℚ) / (max name1.length name2.length : ℚ)) * 0.3 +
          p.jw name1 name2 * 0.3)

/-- `row['name'][0] if row['name'] else ''`: the blocking key of a name. -/
def keyOf : Name → Name
  | [] => []
  | c :: _ => [c]

/-- `block_names`: group the (already preprocessed) names by first
character into a `defaultdict(list)`, preserving input order in each
block's list. -/
def block_names (names : List Name) : MMap :=
  names.foldl (fun bs n => addOne bs (keyOf n) n) []

/-- `itertools.combinations(chunk, 2)`: all position pairs `(i, j)` with
`i < j`, in the iterator's order. -/
def combinations2 : List Name → List (Name × Name)
  | [] => []
  | x :: xs => xs.map (fun y => (x, y)) ++ combinations2 xs

/-- `if name1 > name2: name1, name2 = name2, name1` — canonicalize a pair
so the lexicographically smaller string comes first. -/
def canonPair (pr : Name × Name) : Name × Name :=
  if ltStr pr.2 pr.1 then (pr.2, pr.1) else pr

/-- The mutable state of `process_chunk`'s loop.  `dups` and `seen` are the
notebook's `potential_duplicates` and `seen_pairs`; `scored` and `emitted`
instrument the loop body, recording each pair passed to
`get_similarity_score` and each Match Record that passed the threshold
test (pair together with its unformatted score). -/
structure ChunkState where
  dups : MMap
  seen : List (Name × Name)
  scored : List (Name × Name)
  emitted : List ((Name × Name) × ℚ)
deriving DecidableEq

/-- One iteration of the `for name1, name2 in itertools.combinations(chunk,
2)` loop body of `process_chunk`.  A `none` result is the
`ZeroDivisionError` raised by `get_similarity_score`. -/
def stepPair (p : Provider) (t : ℚ) (st : ChunkState) (pr : Name × Name) : Option ChunkState :=
  let c := canonPair pr
  if c ∈ st.seen then some st
  else
    match get_similarity_score p c.1 c.2 with
    | none => none
    | some s =>
      if t < s ∧ s < 1 then
        some ⟨addOne (addOne st.dups c.1 (fmtEntry c.2 s)) c.2 (fmtEntry c.1 s),
              st.seen ++ [c], st.scored ++ [c], st.emitted ++ [((c.1, c.2), s)]⟩
      else
        some ⟨st.dups, st.seen ++ [c], st.scored ++ [c], st.emitted⟩

/-- The whole loop of `process_chunk`, over an explicit list of remaining
pairs; an exception in one iteration propagates out of the loop. -/
def processPairs (p : Provider) (t : ℚ) : List (Name × Name) → ChunkState → Option ChunkState
  | [], st => some st
  | pr :: rest, st =>
    match stepPair p t st pr with
    | none => none
    | some st1 => processPairs p t rest st1

/-- Run `process_chunk`'s loop from the initial empty state. -/
def runChunk (p : Provider) (chunk : List Name) (t : ℚ) : Option ChunkState :=
  processPairs p t (combinations2 chunk) ⟨[], [], [], []⟩

/-- `process_chunk`: the chunk-scoped Match Map it returns. -/
def process_chunk (p : Provider) (chunk : List Name) (t : ℚ) : Option MMap :=
  (runChunk p chunk t).map (fun st => st.dups)

/-- The pairs `process_chunk` actually passes to `get_similarity_score`
(after canonicalization), in order. -/
def scoredPairs (p : Provider) (chunk : List Name) (t : ℚ) : Option (List (Name × Name)) :=
  (runChunk p chunk t).map (fun st => st.scored)

/-- The chunk slices `names[i:i+chunk_size]` for
`i in range(0, len(names), chunk_size)`, in order. -/
def chunksOf (l : List Name) (cs : ℕ) : List (List Name) :=
  (List.range ((l.length + cs - 1) / cs)).map (fun i => (l.drop (i * cs)).take cs)

/-- `process_block_with_threads`: split the block into chunks, run
`process_chunk` on each, and merge the chunk results in submission order
(the thread pool only adds concurrency; results are collected in order). -/
def process_block_with_threads (p : Provider) (names : List Name) (t : ℚ) (cs : ℕ) :
    Option MMap :=
  (chunksOf names cs).foldlM
    (fun acc c => (process_chunk p c t).map (fun r => mergeMaps acc r)) []

/-- The whole map-building pipeline of the notebook: preprocess the name
column, block it, run `process_block_with_threads` on each block with the
default `threshold = 0.8` and `chunk_size = 1000`, and merge the block
results into `all_potential_duplicates` in collection order. -/
def pipelineMap (p : Provider) (names : List Name) : Option MMap :=
  ((block_names (names.map preprocess_name)).map Prod.snd).foldlM
    (fun acc blk => (process_block_with_threads p blk 0.8 1000).map (fun r => mergeMaps acc r)) []

/-- The case-insensitive member sort of a cluster:
`sorted(set(cluster), key=str.lower)`. -/
def sortCI (l : List Name) : List Name :=
  insSort (fun a b => leStr (lowerList a) (lowerList b)) (dedupFirst l)

/-- The consolidation loop over the Match Map's items, carrying the
`visited` set and returning each emitted cluster together with the key
that seeded it. -/
def consolidateGo : MMap → List Name → List (Name × List Name)
  | [], _ => []
  | (k, sims) :: rest, visited =>
    if k ∈ visited then consolidateGo rest visited
    else
      let uc := sortCI (k :: sims)
      (k, uc) :: consolidateGo rest (visited ++ uc.map (fun s => preprocess_name (baseOf s)))

/-- The consolidation pass from an empty Visited Set, with seeds. -/
def consolidateSeeds (m : MMap) : List (Name × List Name) := consolidateGo m []

/-- The notebook's `clusters` list right after the consolidation loop. -/
def clustersOf (m : MMap) : List (List Name) := (consolidateSeeds m).map Prod.snd

/-- The emitted cluster list after `clusters.sort(key=lambda x: x[0])`. -/
def clustersFinal (m : MMap) : List (List Name) :=
  insSort (fun a b => leStr (a.headD []) (b.headD [])) (clustersOf m)

/-! Concrete data for the counterexamples and witnesses: a small
interface-conforming provider (spec section 6: `lev` is a non-negative
integer, `jw` lies in `[0, 1]`, all four functions are pure and
deterministic) and three one-block names. -/

/-- The string `"aa"`. -/
def aaC : Name := ['a', 'a']

/-- The string `"ab"`. -/
def abC : Name := ['a', 'b']

/-- The string `"ac"`. -/
def acC : Name := ['a', 'c']

/-- A concrete external provider: constant phonetic codes, zero edit
distance, and an alignment similarity of `1/2` exactly on the unordered
pairs {aa, ab} and {ab, ac} (zero otherwise); `jw` is symmetric. -/
def cProv : Provider where
  soundex := fun _ => ['s']
  metaphone := fun _ => ['m']
  lev := fun _ _ => 0
  jw := fun a b =>
    if (a = aaC ∧ b = abC) ∨ (b = aaC ∧ a = abC) ∨ (a = abC ∧ b = acC) ∨ (b = abC ∧ a = acC)
    then 1 / 2 else 0

/-- The input name list `["aa", "ab", "ac"]` for the pipeline runs. -/
def exInput : List Name := [aaC, abC, acC]

/-- The string `"ab (0.85)"`. -/
def abFmtC : Name := ['a', 'b', ' ', '(', '0', '.', '8', '5', ')']

/-- The string `"aa (0.85)"`. -/
def aaFmtC : Name := ['a', 'a', ' ', '(', '0', '.', '8', '5', ')']

/-- The string `"ac (0.85)"`. -/
def acFmtC : Name := ['a', 'c', ' ', '(', '0', '.', '8', '5', ')']

/-- The global Match Map `pipelineMap cProv exInput` computes. -/
def exMap : MMap := [(aaC, [abFmtC]), (abC, [aaFmtC, acFmtC]), (acC, [abFmtC])]

/-- The loop state `runChunk cProv [aaC, abC] 0.8` reaches: the single pair
is scored at `17/20 = 0.85` and emitted in both orderings. -/
def exSt7 : ChunkState :=
  ⟨[(aaC, [abFmtC]), (abC, [aaFmtC])], [(aaC, abC)], [(aaC, abC)], [((aaC, abC), 17 / 20)]⟩

/-- The loop state `runChunk cProv [aaC, acC] 0.8` reaches: the single pair
is scored at `0.7` and not emitted. -/
def exSt3 : ChunkState := ⟨[], [(aaC, acC)], [(aaC, acC)], []⟩

/-! ### Character-level lemmas for the Normalizer -/

theorem toNat_ofNat_valid {n : ℕ} (h : n.isValidChar) : (Char.ofNat n).toNat = n := by
  simp [Char.ofNat, h, Char.ofNatAux, Char.toNat, UInt32.toNat, BitVec.toNat_ofNatLt]

theorem char_le_iff {a b : Char} : a ≤ b ↔ a.toNat ≤ b.toNat := by
  constructor
  · intro h
    simp [Char.le_def] at h
    exact h
  · intro h
    simp [Char.le_def]
    exact h

theorem lowerChar_toNat_of_upper {c : Char} (h1 : 'A' ≤ c) (h2 : c ≤ 'Z') :
    (lowerChar c).toNat = c.toNat + 32 := by
  have e1 : 65 ≤ c.toNat := char_le_iff.mp h1
  have e2 : c.toNat ≤ 90 := char_le_iff.mp h2
  have hv : (c.toNat + 32).isValidChar := Or.inl (by omega)
  simp [lowerChar, Char.toLower, if_pos (And.intro e1 e2), toNat_ofNat_valid hv]

theorem lowerChar_eq_of_not_upper {c : Char} (h : ¬ ('A' ≤ c ∧ c ≤ 'Z')) :
    lowerChar c = c := by
  have hn : ¬ (65 ≤ c.toNat ∧ c.toNat ≤ 90) := by
    intro hc
    exact h ⟨char_le_iff.mpr (by simpa using hc.1), char_le_iff.mpr (by simpa using hc.2)⟩
  simp [lowerChar, Char.toLower, if_neg hn]

theorem lowerChar_idem (c : Char) : lowerChar (lowerChar c) = lowerChar c := by
  by_cases h : 'A' ≤ c ∧ c ≤ 'Z'
  · have ht := lowerChar_toNat_of_upper h.1 h.2
    apply lowerChar_eq_of_not_upper
    intro hc
    have hle := char_le_iff.mp hc.2
    have hz : ('Z' : Char).toNat = 90 := by decide
    rw [ht, hz] at hle
    have e1 : 65 ≤ c.toNat := char_le_iff.mp h.1
    omega
  · rw [lowerChar_eq_of_not_upper h, lowerChar_eq_of_not_upper h]

theorem isSpaceC_lowerChar (c : Char) : isSpaceC (lowerChar c) = isSpaceC c := by
  by_cases h : 'A' ≤ c ∧ c ≤ 'Z'
  · have ht := lowerChar_toNat_of_upper h.1 h.2
    have e1 : 65 ≤ c.toNat := char_le_iff.mp h.1
    have e2 : c.toNat ≤ 90 := char_le_iff.mp h.2
    have hfl : isSpaceC (lowerChar c) = false := by
      simp [isSpaceC, ht]
      omega
    have hfr : isSpaceC c = false := by
      simp [isSpaceC]
      omega
    rw [hfl, hfr]
  · rw [lowerChar_eq_of_not_upper h]

/-! ### Normalizer lemmas -/

theorem strip_eq_rdropWhile (l : List Char) :
    strip l = List.rdropWhile isSpaceC (l.dropWhile isSpaceC) := rfl

theorem head?_dropWhile_false {p : Char → Bool} (l : List Char) (c : Char)
    (h : (l.dropWhile p).head? = some c) : p c = false := by
  induction l with
  | nil => simp [List.dropWhile] at h
  | cons x xs ih =>
    by_cases hx : p x
    · rw [List.dropWhile_cons_of_pos hx] at h
      exact ih h
    · rw [List.dropWhile_cons_of_neg hx] at h
      simp at h
      rw [← h]
      simp [hx]

theorem dropWhile_strip (l : List Char) : (strip l).dropWhile isSpaceC = strip l := by
  cases hs : strip l with
  | nil => rfl
  | cons c rest =>
    obtain ⟨t, ht⟩ := List.rdropWhile_prefix isSpaceC (l.dropWhile isSpaceC)
    have ht' : (c :: rest) ++ t = l.dropWhile isSpaceC := by
      rw [← hs]
      exact ht
    have h1 : (l.dropWhile isSpaceC).head? = some c := by
      rw [← ht']
      rfl
    have hc : isSpaceC c = false := by
      exact head?_dropWhile_false l c h1
    rw [List.dropWhile_cons_of_neg (by simp [hc])]

theorem strip_idem (l : List Char) : strip (strip l) = strip l := by
  rw [strip_eq_rdropWhile (strip l), dropWhile_strip, strip_eq_rdropWhile,
    List.rdropWhile_idempotent]

theorem strip_map_lower (l : List Char) :
    strip (l.map lowerChar) = (strip l).map lowerChar := by
  have hp : isSpaceC ∘ lowerChar = isSpaceC := funext isSpaceC_lowerChar
  unfold strip
  rw [List.dropWhile_map, hp, ← List.map_reverse, List.dropWhile_map, hp, ← List.map_reverse]

theorem preprocess_name_idem (x : Name) :
    preprocess_name (preprocess_name x) = preprocess_name x := by
  unfold preprocess_name
  rw [strip_map_lower, strip_idem, List.map_map]
  apply List.map_congr_left
  intro c _
  exact lowerChar_idem c

/-- C8: the Normalizer is idempotent — for every input string `x`,
`preprocess_name (preprocess_name x) = preprocess_name x` (it is a pure
function of its argument; non-string inputs map to `''`, covered by the
empty list). -/
theorem C8_normalizer_idempotent (x : Name) :
    preprocess_name (preprocess_name x) = preprocess_name x :=
  preprocess_name_idem x

/-- C10: the similarity scorer is invariant under pre-normalization of its
arguments — for every provider and all inputs `a`, `b`,
`get_similarity_score p a b = get_similarity_score p (preprocess_name a)
(preprocess_name b)` (including the raised/`none` case). -/
theorem C10_score_prenormalization_invariant (p : Provider) (a b : Name) :
    get_similarity_score p a b
      = get_similarity_score p (preprocess_name a) (preprocess_name b) := by
  unfold get_similarity_score
  rw [preprocess_name_idem, preprocess_name_idem]

/-- C2: contrary to the claim, `get_similarity_score` on two empty names is
NOT defined: the notebook computes `levenshtein_score / max(len(name1),
len(name2))` with `max(...) = 0` and raises `ZeroDivisionError` (modelled
as `none`), for every choice of the external primitives. -/
theorem C2_score_both_empty_raises (p : Provider) :
    get_similarity_score p [] [] = none := rfl

/-- The symmetry of `cProv.jw` (the condition is invariant under swapping
the two arguments). -/
theorem cProv_jw_symm (a b : Name) : cProv.jw a b = cProv.jw b a := by
  unfold cProv
  simp only
  apply if_congr _ rfl rfl
  tauto

/-- C6: the similarity score is symmetric whenever the two external
string-distance primitives are (both `levenshtein_distance` and
`jaro_winkler_similarity` of the `jellyfish` provider are symmetric):
`get_similarity_score p a b = get_similarity_score p b a`, also in the
raised/`none` case. -/
theorem C6_score_symmetric (p : Provider)
    (hl : ∀ a b, p.lev a b = p.lev b a) (hj : ∀ a b, p.jw a b = p.jw b a)
    (a b : Name) :
    get_similarity_score p a b = get_similarity_score p b a := by
  simp only [get_similarity_score]
  have h1 : (p.soundex (preprocess_name a) = p.soundex (preprocess_name b))
      = (p.soundex (preprocess_name b) = p.soundex (preprocess_name a)) :=
    propext eq_comm
  have h2 : (p.metaphone (preprocess_name a) = p.metaphone (preprocess_name b))
      = (p.metaphone (preprocess_name b) = p.metaphone (preprocess_name a)) :=
    propext eq_comm
  simp only [h1, h2, hl (preprocess_name a) (preprocess_name b),
    hj (preprocess_name a) (preprocess_name b),
    Nat.max_comm (preprocess_name a).length (preprocess_name b).length,
    max_comm ((preprocess_name a).length : ℚ) ((preprocess_name b).length : ℚ)]

/-- C6 witness: symmetry at the concrete provider and the concrete pair
(`"aa"`, `"ab"`). -/
theorem C6_witness :
    get_similarity_score cProv aaC abC = get_similarity_score cProv abC aaC :=
  C6_score_symmetric cProv (fun _ _ => rfl) cProv_jw_symm aaC abC

/-! ### Association-map lemmas -/

theorem lookupD_extendAt_self (m : MMap) (k : Name) (vs : List Name) :
    lookupD (extendAt m k vs) k = lookupD m k ++ vs := by
  induction m with
  | nil => simp [extendAt, lookupD]
  | cons kv rest ih =>
    obtain ⟨k', v⟩ := kv
    by_cases h : k' = k
    · subst h
      simp [extendAt, lookupD]
    · simp [extendAt, lookupD, h, ih]

theorem lookupD_extendAt_ne (m : MMap) (k k' : Name) (vs : List Name) (h : k' ≠ k) :
    lookupD (extendAt m k vs) k' = lookupD m k' := by
  induction m with
  | nil => simp [extendAt, lookupD, Ne.symm h]
  | cons kv rest ih =>
    obtain ⟨k'', v⟩ := kv
    by_cases h2 : k'' = k
    · subst h2
      simp [extendAt, lookupD, Ne.symm h]
    · by_cases h3 : k'' = k'
      · subst h3
        simp [extendAt, lookupD, h2]
      · simp [extendAt, lookupD, h2, h3, ih]

theorem mem_lookupD_extendAt (m : MMap) (k k' : Name) (vs : List Name) (x : Name)
    (hx : x ∈ lookupD m k') : x ∈ lookupD (extendAt m k vs) k' := by
  by_cases h : k' = k
  · subst h
    rw [lookupD_extendAt_self]
    exact List.mem_append_left _ hx
  · rw [lookupD_extendAt_ne m k k' vs h]
    exact hx

theorem mem_lookupD_addOne_self (m : MMap) (k : Name) (v : Name) :
    v ∈ lookupD (addOne m k v) k := by
  rw [addOne, lookupD_extendAt_self]
  simp

/-! ### Chunk-loop lemmas -/

theorem stepPair_cases (p : Provider) (t : ℚ) (st : ChunkState) (pr : Name × Name)
    (st1 : ChunkState) (h : stepPair p t st pr = some st1) :
    (canonPair pr ∈ st.seen ∧ st1 = st) ∨
    (∃ s, canonPair pr ∉ st.seen ∧
      get_similarity_score p (canonPair pr).1 (canonPair pr).2 = some s ∧
      ((t < s ∧ s < 1 ∧
        st1 = ⟨addOne (addOne st.dups (canonPair pr).1 (fmtEntry (canonPair pr).2 s))
                  (canonPair pr).2 (fmtEntry (canonPair pr).1 s),
               st.seen ++ [canonPair pr], st.scored ++ [canonPair pr],
               st.emitted ++ [(((canonPair pr).1, (canonPair pr).2), s)]⟩) ∨
       (¬ (t < s ∧ s < 1) ∧
        st1 = ⟨st.dups, st.seen ++ [canonPair pr], st.scored ++ [canonPair pr],
               st.emitted⟩))) := by
  simp only [stepPair] at h
  by_cases hseen : canonPair pr ∈ st.seen
  · left
    rw [if_pos hseen] at h
    exact ⟨hseen, (Option.some.inj h).symm⟩
  · right
    rw [if_neg hseen] at h
    cases hs : get_similarity_score p (canonPair pr).1 (canonPair pr).2 with
    | none =>
      rw [hs] at h
      exact absurd h (by simp)
    | some s =>
      rw [hs] at h
      dsimp only at h
      refine ⟨s, hseen, rfl, ?_⟩
      by_cases hts : t < s ∧ s < 1
      · left
        rw [if_pos hts] at h
        exact ⟨hts.1, hts.2, (Option.some.inj h).symm⟩
      · right
        rw [if_neg hts] at h
        exact ⟨hts, (Option.some.inj h).symm⟩

theorem processPairs_induct (p : Provider) (t : ℚ) (P : ChunkState → Prop)
    (Q : Name × Name → Prop)
    (hstep : ∀ st pr st1, Q pr → stepPair p t st pr = some st1 → P st → P st1) :
    ∀ (prs : List (Name × Name)) (st st' : ChunkState),
      (∀ pr ∈ prs, Q pr) → processPairs p t prs st = some st' → P st → P st' := by
  intro prs
  induction prs with
  | nil =>
    intro st st' _ h hP
    simp only [processPairs] at h
    rw [← Option.some.inj h]
    exact hP
  | cons pr rest ih =>
    intro st st' hq h hP
    simp only [processPairs] at h
    cases hsp : stepPair p t st pr with
    | none =>
      rw [hsp] at h
      exact absurd h (by simp)
    | some st1 =>
      rw [hsp] at h
      dsimp only at h
      exact ih st1 st' (fun q hqm => hq q (List.mem_cons_of_mem pr hqm)) h
        (hstep st pr st1 (hq pr (List.mem_cons_self pr rest)) hsp hP)

theorem canonPair_ne {pr : Name × Name} (h : pr.1 ≠ pr.2) :
    (canonPair pr).1 ≠ (canonPair pr).2 := by
  unfold canonPair
  split
  · exact Ne.symm h
  · exact h

theorem combinations2_ne (l : List Name) (hl : l.Nodup) :
    ∀ pr ∈ combinations2 l, pr.1 ≠ pr.2 := by
  induction l with
  | nil => simp [combinations2]
  | cons x xs ih =>
    intro pr hpr
    simp only [combinations2, List.mem_append, List.mem_map] at hpr
    rcases hpr with ⟨y, hy, rfl⟩ | hpr
    · intro hxy
      simp only at hxy
      exact (List.nodup_cons.mp hl).1 (by rw [hxy] ; exact hy)
    · exact ih (List.nodup_cons.mp hl).2 pr hpr

/-- C3 (amended): for every chunk, threshold and provider, whenever the
loop of `process_chunk` completes, (a) every emitted Match Record has
`threshold < score < 1.00`, and (b) provided the chunk contains no
repeated name, no scored pair has two equal elements.  (As stated the
claim is false: with a repeated name in the chunk,
`itertools.combinations` yields a self-pair that IS scored — see the
counterexample.) -/
theorem C3_chunk_emission_bounds (p : Provider) (chunk : List Name) (t : ℚ)
    (st' : ChunkState) (h : runChunk p chunk t = some st') :
    (∀ r ∈ st'.emitted, t < r.2 ∧ r.2 < 1) ∧
    (chunk.Nodup → ∀ q ∈ st'.scored, q.1 ≠ q.2) := by
  constructor
  · refine processPairs_induct p t
      (fun st => ∀ r ∈ st.emitted, t < r.2 ∧ r.2 < 1) (fun _ => True)
      ?_ (combinations2 chunk) ⟨[], [], [], []⟩ st' (fun _ _ => trivial) h ?_
    · intro st pr st1 _ hsp hP
      rcases stepPair_cases p t st pr st1 hsp with ⟨_, rfl⟩ | ⟨s, _, _, hbr⟩
      · exact hP
      · rcases hbr with ⟨h1, h2, rfl⟩ | ⟨_, rfl⟩
        · intro r hr
          rcases List.mem_append.mp hr with hr | hr
          · exact hP r hr
          · simp at hr
            rw [hr]
            exact ⟨h1, h2⟩
        · exact hP
    · intro r hr
      simp at hr
  · intro hnd
    refine processPairs_induct p t
      (fun st => ∀ q ∈ st.scored, q.1 ≠ q.2) (fun pr => pr.1 ≠ pr.2)
      ?_ (combinations2 chunk) ⟨[], [], [], []⟩ st' (combinations2_ne chunk hnd) h ?_
    · intro st pr st1 hq hsp hP
      rcases stepPair_cases p t st pr st1 hsp with ⟨_, rfl⟩ | ⟨s, _, _, hbr⟩
      · exact hP
      · have hc := canonPair_ne hq
        rcases hbr with ⟨_, _, rfl⟩ | ⟨_, rfl⟩
        · intro q hqm
          rcases List.mem_append.mp hqm with hqm | hqm
          · exact hP q hqm
          · simp at hqm
            rw [hqm]
            exact hc
        · intro q hqm
          rcases List.mem_append.mp hqm with hqm | hqm
          · exact hP q hqm
          · simp at hqm
            rw [hqm]
            exact hc
    · intro q hq
      simp at hq

/-- C3 counterexample: on the chunk `["aa", "aa"]` (the same name at two
positions) the loop scores the self-pair `("aa", "aa")` — the comparator
DOES compare a name to itself.  (`0.8 = 4/5` is the default threshold.) -/
theorem C3_counterexample :
    scoredPairs cProv [aaC, aaC] (4 / 5) = some [(aaC, aaC)] := by
  with_unfolding_all decide

/-- C3 witness: a completed run on the duplicate-free chunk `["aa", "ac"]`
in which the scored pair has two distinct elements. -/
theorem C3_witness :
    runChunk cProv [aaC, acC] (4 / 5) = some exSt3 ∧ (aaC, acC).1 ≠ (aaC, acC).2 :=
  ⟨by with_unfolding_all decide,
   (C3_chunk_emission_bounds cProv [aaC, acC] (4 / 5) exSt3
      (by with_unfolding_all decide)).2 (by decide) (aaC, acC) (by decide)⟩

/-- C7: whenever the loop of `process_chunk` completes, every Match Record
it emitted for a canonicalized pair `(a, b)` with score `s` is present in
the returned Match Map in both orderings: `a`'s list contains
`"b (s formatted to 2 decimals)"` and `b`'s list contains `"a (...)"`
(`process_chunk p chunk t = (runChunk p chunk t).map (·.dups)`). -/
theorem C7_emission_both_orderings (p : Provider) (chunk : List Name) (t : ℚ)
    (st' : ChunkState) (h : runChunk p chunk t = some st') :
    ∀ a b s, ((a, b), s) ∈ st'.emitted →
      fmtEntry b s ∈ lookupD st'.dups a ∧ fmtEntry a s ∈ lookupD st'.dups b := by
  refine processPairs_induct p t
    (fun st => ∀ a b s, ((a, b), s) ∈ st.emitted →
      fmtEntry b s ∈ lookupD st.dups a ∧ fmtEntry a s ∈ lookupD st.dups b)
    (fun _ => True) ?_ (combinations2 chunk) ⟨[], [], [], []⟩ st'
    (fun _ _ => trivial) h ?_
  · intro st pr st1 _ hsp hP
    rcases stepPair_cases p t st pr st1 hsp with ⟨_, rfl⟩ | ⟨s, _, _, hbr⟩
    · exact hP
    · rcases hbr with ⟨_, _, rfl⟩ | ⟨_, rfl⟩
      · intro a b s' hm
        simp only at hm
        rcases List.mem_append.mp hm with hm | hm
        · have hold := hP a b s' hm
          exact ⟨mem_lookupD_extendAt _ _ _ _ _ (mem_lookupD_extendAt _ _ _ _ _ hold.1),
                 mem_lookupD_extendAt _ _ _ _ _ (mem_lookupD_extendAt _ _ _ _ _ hold.2)⟩
        · simp only [List.mem_singleton] at hm
          have ha : a = (canonPair pr).1 := congrArg (fun z => z.1.1) hm
          have hb : b = (canonPair pr).2 := congrArg (fun z => z.1.2) hm
          have hs2 : s' = s := congrArg (fun z => z.2) hm
          subst ha
          subst hb
          subst hs2
          constructor
          · exact mem_lookupD_extendAt _ _ _ _ _ (mem_lookupD_addOne_self _ _ _)
          · exact mem_lookupD_addOne_self _ _ _
      · intro a b s' hm
        exact hP a b s' hm
  · intro a b s hm
    simp at hm

/-- C7 witness: the concrete run on the chunk `["aa", "ab"]` emits the
canonical pair `("aa", "ab")` with score `0.85`, and both formatted
orderings are present in the returned map. -/
theorem C7_witness :
    runChunk cProv [aaC, abC] (4 / 5) = some exSt7 ∧
    fmtEntry abC (17 / 20) ∈ lookupD exSt7.dups aaC ∧
    fmtEntry aaC (17 / 20) ∈ lookupD exSt7.dups abC :=
  ⟨by with_unfolding_all decide,
   C7_emission_both_orderings cProv [aaC, abC] (4 / 5) exSt7
     (by with_unfolding_all decide) aaC abC (17 / 20) (by with_unfolding_all decide)⟩

/-! ### Chunking lemmas -/

theorem chunksOf_cons (cs : ℕ) (hcs : 0 < cs) (l : List Name) (hl : l ≠ []) :
    chunksOf l cs = l.take cs :: chunksOf (l.drop cs) cs := by
  have hn : 1 ≤ l.length := List.length_pos.mpr hl
  have hm : (l.length + cs - 1) / cs = ((l.drop cs).length + cs - 1) / cs + 1 := by
    rw [List.length_drop]
    rcases le_or_lt l.length cs with hle | hlt
    · have e1 : l.length + cs - 1 = (l.length - 1) + cs := by omega
      have e2 : l.length - cs = 0 := by omega
      rw [e1, Nat.add_div_right _ hcs, e2,
        Nat.div_eq_of_lt (show l.length - 1 < cs by omega),
        Nat.div_eq_of_lt (show 0 + cs - 1 < cs by omega)]
    · have e1 : l.length + cs - 1 = (l.length - 1) + cs := by omega
      have e2 : l.length - cs + cs - 1 = (l.length - 1 - cs) + cs := by omega
      have e3 : l.length - 1 = (l.length - 1 - cs) + cs := by omega
      rw [e1, Nat.add_div_right _ hcs, e2, Nat.add_div_right _ hcs, e3,
        Nat.add_div_right _ hcs]
      have e4 : l.length - 1 - cs + cs - cs = l.length - 1 - cs := by omega
      rw [e4]
  unfold chunksOf
  rw [hm, List.range_succ_eq_map]
  simp only [List.map_cons, List.map_map]
  congr 1
  · simp
  · apply List.map_congr_left
    intro i _
    simp only [Function.comp_apply]
    rw [List.drop_drop]
    congr 2
    simp [Nat.succ_mul]
    ring

theorem chunksOf_join (cs : ℕ) (hcs : 0 < cs) (l : List Name) :
    (chunksOf l cs).flatten = l := by
  by_cases hl : l = []
  · subst hl
    simp [chunksOf, Nat.div_eq_of_lt (show 0 + cs - 1 < cs by omega)]
  · rw [chunksOf_cons cs hcs l hl, List.flatten_cons,
      chunksOf_join cs hcs (l.drop cs), List.take_append_drop]
termination_by l.length
decreasing_by
  have h0 : l.length ≠ 0 := fun h => hl (List.eq_nil_of_length_eq_zero h)
  simp only [List.length_drop]
  omega

/-- C5: for every block name list and every positive `chunk_size`, the
chunks `names[i:i+chunk_size]` taken in order have size at most
`chunk_size` each, there are `⌈k/chunk_size⌉` of them for a `k`-name block
(`(k + chunk_size - 1) / chunk_size` in natural division), and their
concatenation in order is exactly the original block list (hence the
slices are disjoint and cover the block). -/
theorem C5_chunking_partition (l : List Name) (cs : ℕ) (hcs : 0 < cs) :
    (chunksOf l cs).length = (l.length + cs - 1) / cs ∧
    (∀ c ∈ chunksOf l cs, c.length ≤ cs) ∧
    (chunksOf l cs).flatten = l := by
  refine ⟨by simp [chunksOf], ?_, chunksOf_join cs hcs l⟩
  intro c hc
  simp only [chunksOf, List.mem_map] at hc
  obtain ⟨i, _, rfl⟩ := hc
  rw [List.length_take]
  exact min_le_left _ _

/-- C5 witness: the concrete block `["aa", "ab", "ac"]` with
`chunk_size = 2` is cut into `⌈3/2⌉ = 2` chunks whose concatenation is the
block. -/
theorem C5_witness :
    (chunksOf exInput 2).length = 2 ∧ (chunksOf exInput 2).flatten = exInput :=
  ⟨(C5_chunking_partition exInput 2 (by decide)).1.trans (by decide),
   (C5_chunking_partition exInput 2 (by decide)).2.2⟩

/-! ### Blocking lemmas -/

theorem block_names_append (names : List Name) (n : Name) :
    block_names (names ++ [n]) = addOne (block_names names) (keyOf n) n := by
  unfold block_names
  rw [List.foldl_append]
  rfl

theorem keysOf_extendAt (m : MMap) (k : Name) (vs : List Name) :
    keysOf (extendAt m k vs)
      = if k ∈ keysOf m then keysOf m else keysOf m ++ [k] := by
  induction m with
  | nil => simp [extendAt, keysOf]
  | cons kv rest ih =>
    obtain ⟨k', v⟩ := kv
    by_cases h : k' = k
    · subst h
      simp [extendAt, keysOf]
    · simp only [extendAt, if_neg h, keysOf, List.map_cons]
      rw [show keysOf (extendAt rest k vs) = List.map Prod.fst (extendAt rest k vs) from rfl] at ih
      rw [ih]
      by_cases hk : k ∈ List.map Prod.fst rest
      · simp [keysOf, hk, Ne.symm h]
      · simp [keysOf, hk, Ne.symm h]
  
theorem keysOf_nodup_extendAt (m : MMap) (k : Name) (vs : List Name)
    (h : (keysOf m).Nodup) : (keysOf (extendAt m k vs)).Nodup := by
  rw [keysOf_extendAt]
  split
  · exact h
  · next hk => simp [List.nodup_append, h, hk]

theorem lookupD_block_names (names : List Name) (k : Name) :
    lookupD (block_names names) k = names.filter (fun n => keyOf n == k) := by
  induction names using List.reverseRecOn with
  | nil => rfl
  | append_singleton ns n ih =>
    rw [block_names_append, List.filter_append, addOne]
    by_cases h : keyOf n = k
    · subst h
      rw [lookupD_extendAt_self, ih]
      simp
    · rw [lookupD_extendAt_ne _ _ _ _ (Ne.symm h), ih]
      simp [h]

theorem block_names_keys_nodup (names : List Name) :
    (keysOf (block_names names)).Nodup := by
  induction names using List.reverseRecOn with
  | nil => simp [block_names, keysOf]
  | append_singleton ns n ih =>
    rw [block_names_append, addOne]
    exact keysOf_nodup_extendAt _ _ _ ih

theorem flatten_values_extendAt (m : MMap) (k : Name) (vs : List Name) :
    ((extendAt m k vs).map Prod.snd).flatten.Perm ((m.map Prod.snd).flatten ++ vs) := by
  induction m with
  | nil => simp [extendAt]
  | cons kv rest ih =>
    obtain ⟨k', v⟩ := kv
    by_cases h : k' = k
    · subst h
      simp only [extendAt, eq_self_iff_true, if_true, List.map_cons, List.flatten_cons,
        List.append_assoc]
      exact List.Perm.append_left v List.perm_append_comm
    · simp only [extendAt, if_neg h, List.map_cons, List.flatten_cons, List.append_assoc]
      exact List.Perm.append_left v ih

theorem block_names_perm (names : List Name) :
    ((block_names names).map Prod.snd).flatten.Perm names := by
  induction names using List.reverseRecOn with
  | nil => simp [block_names]
  | append_singleton ns n ih =>
    rw [block_names_append, addOne]
    exact (flatten_values_extendAt _ _ _).trans (ih.append_right [n])

/-- C4: blocking is exhaustive and disjoint — the keys of `block_names` are
pairwise distinct; for every key `k`, the block stored under `k` is exactly
the input names whose key (first character, or `""` when empty) is `k`, in
their original relative order; and the concatenation of all blocks is a
permutation of the input names (the full input multiset). -/
theorem C4_blocking_partition (names : List Name) :
    (keysOf (block_names names)).Nodup ∧
    (∀ k, lookupD (block_names names) k = names.filter (fun n => keyOf n == k)) ∧
    ((block_names names).map Prod.snd).flatten.Perm names :=
  ⟨block_names_keys_nodup names, fun k => lookupD_block_names names k,
   block_names_perm names⟩

/-! ### Consolidator lemmas -/

theorem mem_insertSorted {α : Type} (le : α → α → Bool) (x y : α) (l : List α) :
    y ∈ insertSorted le x l ↔ y = x ∨ y ∈ l := by
  induction l with
  | nil => simp [insertSorted]
  | cons z zs ih =>
    simp only [insertSorted]
    split
    · simp
    · simp only [List.mem_cons, ih]
      tauto

theorem mem_insSort {α : Type} (le : α → α → Bool) (y : α) (l : List α) :
    y ∈ insSort le l ↔ y ∈ l := by
  induction l with
  | nil => simp [insSort]
  | cons z zs ih =>
    simp only [insSort, mem_insertSorted, ih, List.mem_cons]

theorem mem_dedupFirst (y : Name) (l : List Name) :
    y ∈ dedupFirst l ↔ y ∈ l := by
  induction l with
  | nil => simp [dedupFirst]
  | cons x xs ih =>
    simp only [dedupFirst, List.mem_cons, List.mem_filter, ih, bne_iff_ne]
    by_cases h : y = x
    · simp [h]
    · simp [h]

theorem mem_sortCI (y : Name) (l : List Name) : y ∈ sortCI l ↔ y ∈ l := by
  rw [sortCI, mem_insSort, mem_dedupFirst]

theorem consolidateGo_key_not_visited (m : MMap) (vis : List Name) :
    ∀ kc ∈ consolidateGo m vis, kc.1 ∉ vis := by
  induction m generalizing vis with
  | nil => simp [consolidateGo]
  | cons kv rest ih =>
    obtain ⟨k, sims⟩ := kv
    intro kc hkc
    simp only [consolidateGo] at hkc
    by_cases hk : k ∈ vis
    · rw [if_pos hk] at hkc
      exact ih vis kc hkc
    · rw [if_neg hk] at hkc
      rcases List.mem_cons.mp hkc with rfl | hkc
      · exact hk
      · intro hv
        exact ih _ kc hkc (List.mem_append_left _ hv)

/-- C1 (amended): every name seeds at most one cluster.  For the
consolidation pass over any Match Map, and any two clusters emitted
earlier and later in the pass, the later cluster's seed key does not occur
among the earlier cluster's base names (its members stripped of the
`" (score)"` suffix and renormalized).  (As stated — "no name is a member
of two clusters" — the claim is false: a visited name can still be added
to a later cluster as a formatted `"name (score)"` member; see the
counterexample.) -/
theorem C1_cluster_seed_unique (m : MMap) :
    (consolidateSeeds m).Pairwise
      (fun c c' => c'.1 ∉ c.2.map (fun s => preprocess_name (baseOf s))) := by
  rw [consolidateSeeds]
  generalize hvis : ([] : List Name) = vis
  clear hvis
  induction m generalizing vis with
  | nil => simp [consolidateGo]
  | cons kv rest ih =>
    obtain ⟨k, sims⟩ := kv
    simp only [consolidateGo]
    by_cases hk : k ∈ vis
    · rw [if_pos hk]
      exact ih vis
    · rw [if_neg hk]
      refine List.Pairwise.cons ?_ (ih _)
      intro c' hc'
      have hnv := consolidateGo_key_not_visited rest _ c' hc'
      intro hmem
      exact hnv (List.mem_append_right _ hmem)

/-- C1 counterexample: on the input `["aa", "ab", "ac"]` with the concrete
provider, the full pipeline emits exactly the two distinct clusters
`["aa", "ab (0.85)"]` and `["ab (0.85)", "ac"]`, and the base name `"ab"`
(stripping the `" (0.85)"` suffix and renormalizing) is a member of both. -/
theorem C1_counterexample :
    (pipelineMap cProv exInput).map clustersFinal
      = some [[aaC, abFmtC], [abFmtC, acC]] ∧
    abC ∈ [aaC, abFmtC].map (fun s => preprocess_name (baseOf s)) ∧
    abC ∈ [abFmtC, acC].map (fun s => preprocess_name (baseOf s)) ∧
    ([aaC, abFmtC] : List Name) ≠ [abFmtC, acC] := by
  with_unfolding_all decide

/-! ### Non-empty-value and membership lemmas for the Match Map -/

theorem valsNE_extendAt (m : MMap) (k : Name) (vs : List Name)
    (hm : ∀ kv ∈ m, kv.2 ≠ []) (hvs : vs ≠ []) :
    ∀ kv ∈ extendAt m k vs, kv.2 ≠ [] := by
  induction m with
  | nil =>
    intro kv hkv
    simp only [extendAt, List.mem_singleton] at hkv
    rw [hkv]
    exact hvs
  | cons kv0 rest ih =>
    obtain ⟨k', v⟩ := kv0
    intro kv hkv
    simp only [extendAt] at hkv
    by_cases h : k' = k
    · rw [if_pos h] at hkv
      rcases List.mem_cons.mp hkv with rfl | hkv
      · simp only
        intro hc
        exact hvs (List.append_eq_nil.mp hc).2
      · exact hm kv (List.mem_cons_of_mem _ hkv)
    · rw [if_neg h] at hkv
      rcases List.mem_cons.mp hkv with rfl | hkv
      · exact hm (k', v) (List.mem_cons_self _ _)
      · exact ih (fun q hq => hm q (List.mem_cons_of_mem _ hq)) kv hkv

theorem valsNE_mergeMaps (dst src : MMap)
    (hd : ∀ kv ∈ dst, kv.2 ≠ []) (hs : ∀ kv ∈ src, kv.2 ≠ []) :
    ∀ kv ∈ mergeMaps dst src, kv.2 ≠ [] := by
  induction src generalizing dst with
  | nil => exact hd
  | cons kv0 rest ih =>
    obtain ⟨k, v⟩ := kv0
    have h1 : mergeMaps dst ((k, v) :: rest) = mergeMaps (extendAt dst k v) rest := rfl
    rw [h1]
    exact ih (extendAt dst k v)
      (valsNE_extendAt dst k v hd (hs (k, v) (List.mem_cons_self _ _)))
      (fun q hq => hs q (List.mem_cons_of_mem _ hq))

theorem process_chunk_valsNE (p : Provider) (c : List Name) (t : ℚ) (m : MMap)
    (h : process_chunk p c t = some m) : ∀ kv ∈ m, kv.2 ≠ [] := by
  rw [process_chunk] at h
  cases hr : runChunk p c t with
  | none =>
    rw [hr] at h
    exact absurd h (by simp)
  | some st =>
    rw [hr] at h
    simp only [Option.map_some'] at h
    have hm : m = st.dups := (Option.some.inj h).symm
    subst hm
    refine processPairs_induct p t (fun st => ∀ kv ∈ st.dups, kv.2 ≠ [])
      (fun _ => True) ?_ (combinations2 c) ⟨[], [], [], []⟩ st
      (fun _ _ => trivial) hr ?_
    · intro st0 pr st1 _ hsp hP
      rcases stepPair_cases p t st0 pr st1 hsp with ⟨_, rfl⟩ | ⟨s, _, _, hbr⟩
      · exact hP
      · rcases hbr with ⟨_, _, rfl⟩ | ⟨_, rfl⟩
        · exact valsNE_extendAt _ _ _
            (valsNE_extendAt _ _ _ hP (by simp)) (by simp)
        · exact hP
    · intro kv hkv
      simp at hkv

theorem foldMerge_valsNE (g : List Name → Option MMap)
    (hg : ∀ x m, g x = some m → ∀ kv ∈ m, kv.2 ≠ []) :
    ∀ (l : List (List Name)) (acc out : MMap),
      l.foldlM (fun a x => (g x).map (fun r => mergeMaps a r)) acc = some out →
      (∀ kv ∈ acc, kv.2 ≠ []) → ∀ kv ∈ out, kv.2 ≠ [] := by
  intro l
  induction l with
  | nil =>
    intro acc out h hacc
    simp only [List.foldlM_nil] at h
    rw [← Option.some.inj h]
    exact hacc
  | cons x rest ih =>
    intro acc out h hacc
    rw [List.foldlM_cons] at h
    cases hg0 : g x with
    | none =>
      rw [hg0] at h
      exact absurd h (by simp)
    | some mres =>
      rw [hg0] at h
      simp only [Option.map_some', Option.some_bind] at h
      exact ih (mergeMaps acc mres) out h
        (valsNE_mergeMaps acc mres hacc (hg x mres hg0))

theorem pipelineMap_valsNE (p : Provider) (names : List Name) (m : MMap)
    (h : pipelineMap p names = some m) : ∀ kv ∈ m, kv.2 ≠ [] := by
  rw [pipelineMap] at h
  refine foldMerge_valsNE (fun blk => process_block_with_threads p blk 0.8 1000)
    ?_ _ [] m h (by simp)
  intro blk mb hb
  unfold process_block_with_threads at hb
  exact foldMerge_valsNE (fun c => process_chunk p c 0.8)
    (fun c mc hc => process_chunk_valsNE p c 0.8 mc hc) _ [] mb hb (by simp)

theorem consolidateGo_members (m : MMap) (vis : List Name) :
    ∀ kc ∈ consolidateGo m vis,
      ∃ kv ∈ m, kc.1 = kv.1 ∧ ∀ x ∈ kc.2, x = kv.1 ∨ x ∈ kv.2 := by
  induction m generalizing vis with
  | nil => simp [consolidateGo]
  | cons kv0 rest ih =>
    obtain ⟨k, sims⟩ := kv0
    intro kc hkc
    simp only [consolidateGo] at hkc
    by_cases hk : k ∈ vis
    · rw [if_pos hk] at hkc
      obtain ⟨kv, hkv, h1, h2⟩ := ih vis kc hkc
      exact ⟨kv, List.mem_cons_of_mem _ hkv, h1, h2⟩
    · rw [if_neg hk] at hkc
      rcases List.mem_cons.mp hkc with rfl | hkc
      · refine ⟨(k, sims), List.mem_cons_self _ _, rfl, ?_⟩
        intro x hx
        simp only at hx
        rw [mem_sortCI] at hx
        exact List.mem_cons.mp hx
      · obtain ⟨kv, hkv, h1, h2⟩ := ih _ kc hkc
        exact ⟨kv, List.mem_cons_of_mem _ hkv, h1, h2⟩

theorem clustersFinal_members (m : MMap) :
    ∀ c ∈ clustersFinal m, ∃ kv ∈ m, ∀ x ∈ c, x = kv.1 ∨ x ∈ kv.2 := by
  intro c hc
  rw [clustersFinal, mem_insSort, clustersOf, List.mem_map] at hc
  obtain ⟨kc, hkc, rfl⟩ := hc
  obtain ⟨kv, hkv, _, h2⟩ := consolidateGo_members m [] kc hkc
  exact ⟨kv, hkv, h2⟩

/-- C9: names without any above-threshold match are silently dropped.
Whenever the pipeline completes with global Match Map `m`: (a) every key
of `m` has a non-empty candidate list (a name with no emitted Match
Record never becomes a key — keys are only ever created by appending a
record); and (b) a name that is not a key of `m` and appears in no key's
candidate list is a member of no emitted cluster. -/
theorem C9_unmatched_names_dropped (p : Provider) (names : List Name) (m : MMap)
    (h : pipelineMap p names = some m) :
    (∀ kv ∈ m, kv.2 ≠ []) ∧
    (∀ x : Name, (∀ kv ∈ m, x ≠ kv.1 ∧ x ∉ kv.2) →
      ∀ c ∈ clustersFinal m, x ∉ c) := by
  refine ⟨pipelineMap_valsNE p names m h, ?_⟩
  intro x hx c hc hxc
  obtain ⟨kv, hkv, hmem⟩ := clustersFinal_members m c hc
  rcases hmem x hxc with h1 | h1
  · exact (hx kv hkv).1 h1
  · exact (hx kv hkv).2 h1

/-- C9 witness: on the concrete pipeline run with Match Map `exMap`, every
key has a non-empty list (checked at the first key), and the unmatched
name `"z"` is in no emitted cluster (checked at the first cluster). -/
theorem C9_witness :
    pipelineMap cProv exInput = some exMap ∧
    (aaC, [abFmtC]).2 ≠ [] ∧
    (['z'] : Name) ∉ (clustersFinal exMap).headD [] :=
  ⟨by with_unfolding_all decide,
   (C9_unmatched_names_dropped cProv exInput exMap (by with_unfolding_all decide)).1
     (aaC, [abFmtC]) (by with_unfolding_all decide),
   (C9_unmatched_names_dropped cProv exInput exMap (by with_unfolding_all decide)).2
     ['z'] (by with_unfolding_all decide) ((clustersFinal exMap).headD [])
     (by with_unfolding_all decide)⟩
